import Mathlib

/-!
Shallow embedding of `docs/validate-links.py`, a documentation link
validator.  A document is a file name together with the result of reading
its text (`ReadResult.fail` models the exception branch of `read_text`).
Links are extracted with the pattern
`\[([^\]]+)\]\(([^)]+\.md)(?:#[^)]*)?\)` (embedded below as an explicit
scanner with the same leftmost, greedy, non-overlapping semantics),
targets are checked against the set of known file names, an
incoming-link index is built, and orphan warnings are computed.
-/

namespace ValidateLinks

/-- The result of `md_file.read_text`: the content, or the message of the
exception raised. -/
inductive ReadResult where
  | ok (content : String)
  | fail (msg : String)
deriving DecidableEq

/-- A markdown document: its file name and the result of reading it. -/
structure Doc where
  name : String
  content : ReadResult
deriving DecidableEq

/-- Errors appended to `self.errors`: a broken link (unknown target) or a
read failure, carrying exactly the data the formatted strings name. -/
inductive VError where
  | brokenLink (source target text : String)
  | readError (source msg : String)
deriving DecidableEq

/-- Warnings appended to `self.warnings` by the orphan check. -/
inductive VWarning where
  | noIncoming (doc : String)
  | onlyFromNav (doc : String)
deriving DecidableEq

/-- The document a warning is about. -/
def warnSubject : VWarning → String
  | .noIncoming d => d
  | .onlyFromNav d => d

/-- The navigation-index document, excluded from orphan checks. -/
def navIndexName : String := "testing-navigation-index.md"

/-! ### The link pattern

`re.findall` with `\[([^\]]+)\]\(([^)]+\.md)(?:#[^)]*)?\)`.  Both character
classes exclude the closing delimiter, so group 1 is the maximal run of
non-`]` characters after `[`, and the whole parenthesised part is the
maximal run of non-`)` characters after `(`.  Inside the parentheses the
greedy `[^)]+` picks the largest prefix that is followed by `.md` and then
either the end of the span or a `#`-fragment. -/

/-- Whether splitting the parenthesised span at position `p` satisfies
`[^)]+\.md(?:#[^)]*)?`: a nonempty prefix, then `.md`, then nothing or a
fragment starting with `#`. -/
def isSplit (inner : List Char) (p : Nat) : Bool :=
  decide (1 ≤ p) && ((inner.drop p).take 3 == ['.', 'm', 'd']) &&
    (match inner.drop (p + 3) with
     | [] => true
     | '#' :: _ => true
     | _ => false)

/-- Greedy `[^)]+`: the largest valid split position, if any. -/
def findSplit (inner : List Char) : Option Nat :=
  (List.range inner.length).reverse.find? (isSplit inner)

/-- The end of a match, after `\(` has been consumed: `inner` is the
maximal run of non-`)` characters and `afterInner` what follows it.
The match succeeds when the close paren is present and the span splits
as `[^)]+\.md(?:#[^)]*)?`. -/
def matchTail (text inner afterInner : List Char) :
    Option (List Char × List Char × List Char) :=
  match afterInner with
  | c :: r5 =>
    if c = ')' then
      match findSplit inner with
      | some p => some (text, inner.take (p + 3), r5)
      | none => none
    else none
  | [] => none

/-- After group 1 has been consumed: require `\]\(`, then match the
parenthesised part. -/
def matchAfterText (text r2 : List Char) :
    Option (List Char × List Char × List Char) :=
  match r2 with
  | c1 :: c2 :: r3 =>
    if c1 = ']' ∧ c2 = '(' then
      matchTail text (r3.takeWhile (fun x => x ≠ ')'))
        (r3.drop (r3.takeWhile (fun x => x ≠ ')')).length)
    else none
  | _ => none

/-- Try to match the pattern at the head of `s`: an open bracket, a
nonempty maximal run of non-`]` characters (group 1), then the rest.
On success return (group 1, group 2, remainder after the match). -/
def matchAt : List Char → Option (List Char × List Char × List Char)
  | c0 :: r1 =>
    if c0 = '[' then
      if (r1.takeWhile (fun x => x ≠ ']')).isEmpty then none
      else
        matchAfterText (r1.takeWhile (fun x => x ≠ ']'))
          (r1.drop (r1.takeWhile (fun x => x ≠ ']')).length)
    else none
  | [] => none

/-- Scan left to right, emitting non-overlapping matches and advancing one
character when no match starts at the current position.  The fuel is an
upper bound on the number of steps; every step strictly shortens the
input, so `s.length` fuel is always enough. -/
def findallAux : Nat → List Char → List (String × String)
  | 0, _ => []
  | Nat.succ fuel, s =>
    match matchAt s with
    | some (text, target, rest) =>
      (text.asString, target.asString) :: findallAux fuel rest
    | none =>
      match s with
      | [] => []
      | _ :: tail => findallAux fuel tail

/-- Python `self.link_pattern.findall(content)`. -/
def findall (s : String) : List (String × String) :=
  findallAux s.length s.toList

/-- Python `target.endswith(".md")`, on the character list. -/
def endsWithMd (t : String) : Bool :=
  List.isSuffixOf ['.', 'm', 'd'] t.toList

/-- The method `_extract_links`: read the file and return the filtered matches; on a
read failure record one error and return the empty list.  The first
component is the returned link list, the second the errors appended. -/
def extractLinksRes (d : Doc) : List (String × String) × List VError :=
  match d.content with
  | ReadResult.ok c => ((findall c).filter (fun l => endsWithMd l.2), [])
  | ReadResult.fail e => ([], [VError.readError d.name e])

/-- The link list `_extract_links` returns for a document. -/
def docLinks (d : Doc) : List (String × String) :=
  (extractLinksRes d).1

/-- The errors `_extract_links` appends for a document. -/
def docReadErrors (d : Doc) : List VError :=
  (extractLinksRes d).2

/-! ### Dictionaries

Python dicts keyed by strings, as insertion-ordered association lists. -/

/-- Python `m[k]` lookup (`none` when the key is absent). -/
def lookupOpt {α : Type} : List (String × α) → String → Option α
  | [], _ => none
  | (k, v) :: rest, t => if k = t then some v else lookupOpt rest t

/-- Python `if k not in m: m[k] = []` followed by `m[k].append(v)`. -/
def insertAppend {α : Type} : List (String × List α) → String → α → List (String × List α)
  | [], k, v => [(k, [v])]
  | (k2, vs) :: rest, k, v =>
    if k2 = k then (k2, vs ++ [v]) :: rest else (k2, vs) :: insertAppend rest k v

/-- Python `m[k] = v`. -/
def insertReplace {α : Type} : List (String × α) → String → α → List (String × α)
  | [], k, v => [(k, v)]
  | (k2, v2) :: rest, k, v =>
    if k2 = k then (k2, v) :: rest else (k2, v2) :: insertReplace rest k v

/-! ### validate_all_links -/

/-- The mutable state of the main loop of `validate_all_links`:
`self.errors`, the `incoming_links` dict and the `all_links` dict. -/
structure RunState where
  errors : List VError
  incoming : List (String × List (String × String))
  allLinks : List (String × List (String × String))
deriving DecidableEq

/-- The body of `for link_text, target_file in links`: an unknown target
records a broken-link error, a known one is appended to the incoming
index under the target. -/
def processLink (names : List String) (src : String) (s : RunState)
    (l : String × String) : RunState :=
  if ! names.contains l.2 then
    { s with errors := s.errors ++ [VError.brokenLink src l.2 l.1] }
  else
    { s with incoming := insertAppend s.incoming l.2 (src, l.1) }

/-- Folding `processLink` over a document's link list. -/
def processLinks (names : List String) (src : String) (s : RunState)
    (ls : List (String × String)) : RunState :=
  ls.foldl (processLink names src) s

/-- The body of `for md_file in self.markdown_files`: extract the links
(recording a read error if any), store them in `all_links`, then check
each link. -/
def processDoc (names : List String) (s : RunState) (d : Doc) : RunState :=
  processLinks names d.name
    { s with
      errors := s.errors ++ docReadErrors d,
      allLinks := insertReplace s.allLinks d.name (docLinks d) }
    (docLinks d)

/-- Folding `processDoc` over the document list. -/
def processDocs (names : List String) (s : RunState) (ds : List Doc) : RunState :=
  ds.foldl (processDoc names) s

/-- The orphan check for one file name: the navigation index is skipped;
a name absent from the incoming index warns `noIncoming`; a name whose
entry is a single pair sourced at the navigation index warns
`onlyFromNav`. -/
def orphanWarning (incoming : List (String × List (String × String)))
    (filename : String) : Option VWarning :=
  if filename = navIndexName then none
  else
    match lookupOpt incoming filename with
    | none => some (VWarning.noIncoming filename)
    | some l =>
      if l.length == 1 &&
          (match l with
           | (src, _) :: _ => src == navIndexName
           | [] => false) then
        some (VWarning.onlyFromNav filename)
      else none

/-- Everything `validate_all_links` leaves behind: the error and warning
lists, both dicts, and the returned success flag. -/
structure RunResult where
  errors : List VError
  warnings : List VWarning
  allLinks : List (String × List (String × String))
  incoming : List (String × List (String × String))
  success : Bool
deriving DecidableEq

/-- The method `validate_all_links` on a fresh validator: build the file map from the
document names, process every document, then run the orphan check over
the documents in order; the return value is `len(self.errors) == 0`. -/
def runValidation (docs : List Doc) : RunResult :=
  let names := docs.map Doc.name
  let st := processDocs names ⟨[], [], []⟩ docs
  { errors := st.errors
    warnings := docs.filterMap (fun d => orphanWarning st.incoming d.name)
    allLinks := st.allLinks
    incoming := st.incoming
    success := st.errors.length == 0 }

/-- The entry point `main()` with no flags: `sys.exit(1)` when validation fails, implicit
exit code 0 otherwise. -/
def mainExitCode (docs : List Doc) : Nat :=
  if (runValidation docs).success then 0 else 1

/-! ### generate_link_report -/

/-- The `link_matrix` dict: document name to the targets of its links. -/
def linkMatrix (docs : List Doc) : List (String × List String) :=
  docs.foldl (fun m d => insertReplace m d.name ((docLinks d).map Prod.snd)) []

/-- Python `sorted` on strings (code-point lexicographic). -/
def sortStrings (l : List String) : List String :=
  List.insertionSort (fun a b => a ≤ b) l

/-- Python `sorted(set(l))`. -/
def sortedDistinct (l : List String) : List String :=
  sortStrings l.dedup

/-- One table row: the comma-joined sorted distinct targets, or the
placeholder for a document with no outgoing links. -/
def reportRow (source : String) (targets : List String) : String :=
  if !targets.isEmpty then
    "| " ++ source ++ " | " ++ String.intercalate ", " (sortedDistinct targets) ++ " |"
  else
    "| " ++ source ++ " | *(no outgoing links)* |"

/-- The data rows of the report table, one per key of `link_matrix` in
sorted key order. -/
def reportRows (docs : List Doc) : List String :=
  (sortStrings ((linkMatrix docs).map Prod.fst)).map
    (fun source => reportRow source ((lookupOpt (linkMatrix docs) source).getD []))

/-- The method `generate_link_report`: heading, table header, then the rows, joined
with newlines. -/
def generateLinkReport (docs : List Doc) : String :=
  String.intercalate "\n"
    (["# Documentation Link Report", "", "## Link Matrix", "",
      "| From Document | Links To |", "|---------------|----------|"] ++ reportRows docs)

/-! ### Derived notions used in the statements -/

/-- The fields of a broken-link error, `none` for other errors. -/
def brokenOf : VError → Option (String × String × String)
  | .brokenLink s t x => some (s, t, x)
  | .readError _ _ => none

/-- The broken-link errors the main loop records for one document, in
order: one per extracted link whose target is not a known name. -/
def brokenErrorsFor (names : List String) (d : Doc) : List VError :=
  ((docLinks d).filter (fun l => !names.contains l.2)).map
    (fun l => VError.brokenLink d.name l.2 l.1)

/-- The pairs one document appends to the incoming index under target
`t`: one per extracted link with known target equal to `t`. -/
def incomingFor (names : List String) (t : String) (d : Doc) : List (String × String) :=
  ((docLinks d).filter (fun l => names.contains l.2 && l.2 == t)).map
    (fun l => (d.name, l.1))

/-- Modelled from the spec: the incoming-link index entry the
specification describes for a target — all (source document, display
text) pairs of extracted links whose target equals that name, provided
the name is a known document, in document order. -/
def specIncomingPairs (docs : List Doc) (t : String) : List (String × String) :=
  if (docs.map Doc.name).contains t then
    docs.flatMap (fun d =>
      ((docLinks d).filter (fun l => l.2 == t)).map (fun l => (d.name, l.1)))
  else []

/-- How a dict entry changes when a run of values is appended under a
key: an existing entry is extended, a missing one is created unless the
run is empty. -/
def extendOpt {α : Type} (o : Option (List α)) (new : List α) : Option (List α) :=
  match o with
  | some vs => some (vs ++ new)
  | none => if new.isEmpty then none else some new

/-! ### Concrete documents used as witnesses and counterexamples -/

/-- A document whose read fails. -/
def docBad : Doc := ⟨"bad.md", ReadResult.fail "boom"⟩

/-- A readable document with one broken link. -/
def docGood : Doc := ⟨"good.md", ReadResult.ok "[y](missing.md)"⟩

/-- A directory with one unreadable and one readable document. -/
def docsRF : List Doc := [docBad, docGood]

/-- A single document that links only to itself. -/
def docSelf : Doc := ⟨"a.md", ReadResult.ok "[self](a.md)"⟩

/-- A document with two links to the same target, next to a document
with no links. -/
def docDup : Doc := ⟨"b.md", ReadResult.ok "[x](a.md) [y](a.md)"⟩

/-- A document with no links at all. -/
def docEmpty : Doc := ⟨"a.md", ReadResult.ok ""⟩

/-- The two-document directory used by the report witnesses. -/
def docsDup : List Doc := [docDup, docEmpty]

/-- A directory with one valid cross-document link. -/
def docsLink : List Doc := [⟨"a.md", ReadResult.ok "[x](b.md)"⟩, ⟨"b.md", ReadResult.ok ""⟩]

/-! ### Facts about the scanner -/

theorem findSplit_isSplit (inner : List Char) (p : Nat) (h : findSplit inner = some p) :
    isSplit inner p = true :=
  List.find?_some h

theorem isSplit_props (inner : List Char) (p : Nat) (h : isSplit inner p = true) :
    1 ≤ p ∧ p + 3 ≤ inner.length ∧ (inner.drop p).take 3 = ['.', 'm', 'd'] := by
  unfold isSplit at h
  rw [Bool.and_eq_true, Bool.and_eq_true] at h
  obtain ⟨⟨h1, h2⟩, -⟩ := h
  have hp : 1 ≤ p := of_decide_eq_true h1
  have ht : (inner.drop p).take 3 = ['.', 'm', 'd'] := eq_of_beq h2
  have hlen3 : ((inner.drop p).take 3).length = 3 := by rw [ht]; rfl
  rw [List.length_take, List.length_drop] at hlen3
  exact ⟨hp, by omega, ht⟩

theorem matchTail_some (text inner afterInner tl gl rest : List Char)
    (h : matchTail text inner afterInner = some (tl, gl, rest)) :
    tl = text ∧ ∃ p, findSplit inner = some p ∧ gl = inner.take (p + 3) := by
  unfold matchTail at h
  split at h
  · split at h
    · split at h
      · rename_i p hp
        simp only [Option.some.injEq, Prod.mk.injEq] at h
        obtain ⟨rfl, rfl, rfl⟩ := h
        exact ⟨rfl, p, hp, rfl⟩
      · simp at h
    · simp at h
  · simp at h

theorem matchAfterText_some (text r2 tl gl rest : List Char)
    (h : matchAfterText text r2 = some (tl, gl, rest)) :
    tl = text ∧ ∃ p inner, findSplit inner = some p ∧ gl = inner.take (p + 3) := by
  unfold matchAfterText at h
  split at h
  · split at h
    · obtain ⟨h1, p, h2, h3⟩ := matchTail_some _ _ _ _ _ _ h
      exact ⟨h1, p, _, h2, h3⟩
    · simp at h
  · simp at h

theorem matchAt_some (s tl gl rest : List Char)
    (h : matchAt s = some (tl, gl, rest)) :
    tl ≠ [] ∧ ∃ p inner, findSplit inner = some p ∧ gl = inner.take (p + 3) := by
  cases s with
  | nil => simp [matchAt] at h
  | cons c0 r1 =>
    rw [matchAt] at h
    split at h
    · split at h
      · simp at h
      · rename_i hne
        obtain ⟨h1, hrest⟩ := matchAfterText_some _ _ _ _ _ h
        refine ⟨?_, hrest⟩
        rw [h1]
        intro hc
        rw [hc] at hne
        simp at hne
    · simp at h

theorem matchAt_target (s tl gl rest : List Char)
    (h : matchAt s = some (tl, gl, rest)) :
    tl ≠ [] ∧ 4 ≤ gl.length ∧ gl.drop (gl.length - 3) = ['.', 'm', 'd'] := by
  obtain ⟨htl, p, inner, hfs, hg⟩ := matchAt_some s tl gl rest h
  obtain ⟨hp, hlen, hmd⟩ := isSplit_props inner p (findSplit_isSplit inner p hfs)
  subst hg
  have hglen : (inner.take (p + 3)).length = p + 3 := by
    rw [List.length_take]; omega
  refine ⟨htl, by omega, ?_⟩
  rw [hglen]
  have h3 : p + 3 - 3 = p := by omega
  rw [h3, List.drop_take]
  have h4 : p + 3 - p = 3 := by omega
  rw [h4, hmd]

theorem mem_findallAux (fuel : Nat) (s : List Char) (t g : String)
    (h : (t, g) ∈ findallAux fuel s) :
    ∃ s2 tl gl rest, matchAt s2 = some (tl, gl, rest) ∧
      t = tl.asString ∧ g = gl.asString := by
  induction fuel generalizing s with
  | zero => simp [findallAux] at h
  | succ fuel ih =>
    have hunf : ∀ s2 : List Char, findallAux (Nat.succ fuel) s2 =
        (match matchAt s2 with
         | some (text, target, rest) =>
           (text.asString, target.asString) :: findallAux fuel rest
         | none =>
           match s2 with
           | [] => []
           | _ :: tail => findallAux fuel tail) := fun _ => rfl
    rw [hunf s] at h
    cases hm : matchAt s with
    | some res =>
      obtain ⟨tl, gl, rest⟩ := res
      rw [hm] at h
      rcases List.mem_cons.mp h with heq | hmem
      · simp only [Prod.mk.injEq] at heq
        exact ⟨s, tl, gl, rest, hm, heq.1, heq.2⟩
      · exact ih rest hmem
    | none =>
      rw [hm] at h
      cases s with
      | nil => simp at h
      | cons c tail => exact ih tail h

theorem data_asString (l : List Char) : (l.asString).data = l := rfl

theorem asString_ne_empty (l : List Char) (h : l ≠ []) : l.asString ≠ "" := by
  intro hc
  exact h (congrArg String.data hc)

/-- C9: link extraction never yields a link with an empty display text or
an empty pre-extension target: every extracted pair has nonempty text and
a target of at least four characters ending in `.md`, so constructs such
as `[](x.md)` or `[t](.md)` are not extracted as links. -/
theorem extracted_link_nonempty_parts (d : Doc) (t g : String)
    (h : (t, g) ∈ docLinks d) :
    t ≠ "" ∧ 4 ≤ g.data.length ∧ g.data.drop (g.data.length - 3) = ['.', 'm', 'd'] := by
  have h2 : (t, g) ∈ findall (match d.content with
      | ReadResult.ok c => c
      | ReadResult.fail _ => "") := by
    cases hc : d.content with
    | ok c =>
      unfold docLinks extractLinksRes at h
      rw [hc] at h
      exact (List.mem_filter.mp h).1
    | fail e =>
      unfold docLinks extractLinksRes at h
      rw [hc] at h
      simp at h
  obtain ⟨s2, tl, gl, rest, hm, ht, hg⟩ := mem_findallAux _ _ _ _ h2
  obtain ⟨htl, hlen, hmd⟩ := matchAt_target _ _ _ _ hm
  subst ht
  subst hg
  exact ⟨asString_ne_empty tl htl, hlen, hmd⟩

/-- Witness for C9 at a concrete document containing `[a](b.md)`. -/
theorem extracted_link_nonempty_parts_witness :
    ("a", "b.md") ∈ docLinks ⟨"w.md", ReadResult.ok "[a](b.md)"⟩ ∧
      (("a" : String) ≠ "" ∧ 4 ≤ "b.md".data.length ∧
        "b.md".data.drop ("b.md".data.length - 3) = ['.', 'm', 'd']) :=
  ⟨by decide, extracted_link_nonempty_parts ⟨"w.md", ReadResult.ok "[a](b.md)"⟩ "a" "b.md" (by decide)⟩

/-! ### Facts about the dictionaries -/

theorem lookupOpt_insertAppend {α : Type} (m : List (String × List α)) (k t : String) (v : α) :
    lookupOpt (insertAppend m k v) t =
      if t = k then some ((lookupOpt m k).getD [] ++ [v]) else lookupOpt m t := by
  induction m with
  | nil =>
    by_cases h : t = k
    · subst h; simp [insertAppend, lookupOpt]
    · simp [insertAppend, lookupOpt, h, Ne.symm h]
  | cons kv rest ih =>
    obtain ⟨k2, vs⟩ := kv
    by_cases h1 : k2 = k
    · subst h1
      by_cases h2 : t = k2
      · subst h2; simp [insertAppend, lookupOpt]
      · simp [insertAppend, lookupOpt, h2, Ne.symm h2]
    · by_cases h2 : t = k2
      · subst h2
        simp [insertAppend, lookupOpt, h1]
      · simp [insertAppend, lookupOpt, h1, h2, Ne.symm h2, ih]

theorem lookupOpt_insertReplace {α : Type} (m : List (String × α)) (k t : String) (v : α) :
    lookupOpt (insertReplace m k v) t =
      if t = k then some v else lookupOpt m t := by
  induction m with
  | nil =>
    by_cases h : t = k
    · subst h; simp [insertReplace, lookupOpt]
    · simp [insertReplace, lookupOpt, h, Ne.symm h]
  | cons kv rest ih =>
    obtain ⟨k2, v2⟩ := kv
    by_cases h1 : k2 = k
    · subst h1
      by_cases h2 : t = k2
      · subst h2; simp [insertReplace, lookupOpt]
      · simp [insertReplace, lookupOpt, h2, Ne.symm h2]
    · by_cases h2 : t = k2
      · subst h2
        simp [insertReplace, lookupOpt, h1]
      · simp [insertReplace, lookupOpt, h1, h2, Ne.symm h2, ih]

theorem lookupOpt_eq_none_iff {α : Type} (m : List (String × α)) (k : String) :
    lookupOpt m k = none ↔ k ∉ m.map Prod.fst := by
  induction m with
  | nil => simp [lookupOpt]
  | cons kv rest ih =>
    obtain ⟨k2, v⟩ := kv
    by_cases h : k2 = k
    · subst h
      simp [lookupOpt]
    · simp [lookupOpt, h, Ne.symm h, ih]

theorem extendOpt_nil {α : Type} (o : Option (List α)) : extendOpt o [] = o := by
  cases o <;> simp [extendOpt]

theorem extendOpt_append {α : Type} (o : Option (List α)) (a b : List α) :
    extendOpt (extendOpt o a) b = extendOpt o (a ++ b) := by
  cases o with
  | some vs => simp [extendOpt]
  | none =>
    cases a with
    | nil => simp [extendOpt]
    | cons x xs => simp [extendOpt]

/-! ### The main loop, characterised -/

theorem processLink_of_unknown (names : List String) (src : String) (s : RunState)
    (l : String × String) (hc : names.contains l.2 = false) :
    processLink names src s l
      = { s with errors := s.errors ++ [VError.brokenLink src l.2 l.1] } := by
  unfold processLink
  rw [hc]
  rfl

theorem processLink_of_known (names : List String) (src : String) (s : RunState)
    (l : String × String) (hc : names.contains l.2 = true) :
    processLink names src s l
      = { s with incoming := insertAppend s.incoming l.2 (src, l.1) } := by
  unfold processLink
  rw [hc]
  rfl

theorem processLinks_errors (names : List String) (src : String) (s : RunState)
    (ls : List (String × String)) :
    (processLinks names src s ls).errors =
      s.errors ++ (ls.filter (fun l => !names.contains l.2)).map
        (fun l => VError.brokenLink src l.2 l.1) := by
  induction ls generalizing s with
  | nil => simp [processLinks]
  | cons l ls ih =>
    have hstep : processLinks names src s (l :: ls)
        = processLinks names src (processLink names src s l) ls := rfl
    rw [hstep, ih, List.filter_cons]
    cases hc : names.contains l.2 with
    | false => rw [processLink_of_unknown names src s l hc]; simp
    | true => rw [processLink_of_known names src s l hc]; simp

theorem processLinks_allLinks (names : List String) (src : String) (s : RunState)
    (ls : List (String × String)) :
    (processLinks names src s ls).allLinks = s.allLinks := by
  induction ls generalizing s with
  | nil => rfl
  | cons l ls ih =>
    have hstep : processLinks names src s (l :: ls)
        = processLinks names src (processLink names src s l) ls := rfl
    rw [hstep, ih]
    cases hc : names.contains l.2 with
    | false => rw [processLink_of_unknown names src s l hc]
    | true => rw [processLink_of_known names src s l hc]

theorem processLinks_incoming (names : List String) (src : String) (s : RunState)
    (ls : List (String × String)) (t : String) :
    lookupOpt (processLinks names src s ls).incoming t =
      extendOpt (lookupOpt s.incoming t)
        ((ls.filter (fun l => names.contains l.2 && l.2 == t)).map
          (fun l => (src, l.1))) := by
  induction ls generalizing s with
  | nil => simp [processLinks, extendOpt_nil]
  | cons l ls ih =>
    have hstep : processLinks names src s (l :: ls)
        = processLinks names src (processLink names src s l) ls := rfl
    rw [hstep, ih, List.filter_cons]
    cases hc : names.contains l.2 with
    | false =>
      rw [processLink_of_unknown names src s l hc]
      simp
    | true =>
      rw [processLink_of_known names src s l hc]
      by_cases ht : l.2 = t
      · subst ht
        have hlook : lookupOpt (insertAppend s.incoming l.2 (src, l.1)) l.2
            = some ((lookupOpt s.incoming l.2).getD [] ++ [(src, l.1)]) := by
          rw [lookupOpt_insertAppend]
          simp
        rw [show ({ s with incoming := insertAppend s.incoming l.2 (src, l.1) }
            : RunState).incoming = insertAppend s.incoming l.2 (src, l.1) from rfl,
          hlook]
        cases hl : lookupOpt s.incoming l.2 <;> simp [extendOpt, hl]
      · have hbeq : (l.2 == t) = false := by simp [ht]
        have hlook : lookupOpt (insertAppend s.incoming l.2 (src, l.1)) t
            = lookupOpt s.incoming t := by
          rw [lookupOpt_insertAppend]
          simp [Ne.symm ht]
        rw [show ({ s with incoming := insertAppend s.incoming l.2 (src, l.1) }
            : RunState).incoming = insertAppend s.incoming l.2 (src, l.1) from rfl,
          hlook, hbeq]
        simp

theorem processDocs_errors (names : List String) (s : RunState) (ds : List Doc) :
    (processDocs names s ds).errors =
      s.errors ++ ds.flatMap (fun d => docReadErrors d ++ brokenErrorsFor names d) := by
  induction ds generalizing s with
  | nil => simp [processDocs]
  | cons d ds ih =>
    have hstep : processDocs names s (d :: ds)
        = processDocs names (processDoc names s d) ds := rfl
    rw [hstep, ih, List.flatMap_cons]
    have hdoc : (processDoc names s d).errors
        = s.errors ++ (docReadErrors d ++ brokenErrorsFor names d) := by
      unfold processDoc
      rw [processLinks_errors]
      simp [brokenErrorsFor]
    rw [hdoc]
    simp

theorem processDocs_allLinks (names : List String) (s : RunState) (ds : List Doc) :
    (processDocs names s ds).allLinks =
      ds.foldl (fun m d => insertReplace m d.name (docLinks d)) s.allLinks := by
  induction ds generalizing s with
  | nil => rfl
  | cons d ds ih =>
    have hstep : processDocs names s (d :: ds)
        = processDocs names (processDoc names s d) ds := rfl
    rw [hstep, ih, List.foldl_cons]
    have hdoc : (processDoc names s d).allLinks
        = insertReplace s.allLinks d.name (docLinks d) := by
      unfold processDoc
      rw [processLinks_allLinks]
    rw [hdoc]

theorem processDocs_incoming (names : List String) (s : RunState) (ds : List Doc)
    (t : String) :
    lookupOpt (processDocs names s ds).incoming t =
      extendOpt (lookupOpt s.incoming t) (ds.flatMap (incomingFor names t)) := by
  induction ds generalizing s with
  | nil => simp [processDocs, extendOpt_nil]
  | cons d ds ih =>
    have hstep : processDocs names s (d :: ds)
        = processDocs names (processDoc names s d) ds := rfl
    rw [hstep, ih, List.flatMap_cons, ← extendOpt_append]
    have hdoc : lookupOpt (processDoc names s d).incoming t
        = extendOpt (lookupOpt s.incoming t) (incomingFor names t d) := by
      unfold processDoc
      rw [processLinks_incoming]
      rfl
    rw [hdoc]

/-! ### The run, characterised -/

theorem runValidation_errors (docs : List Doc) :
    (runValidation docs).errors =
      docs.flatMap (fun d =>
        docReadErrors d ++ brokenErrorsFor (docs.map Doc.name) d) := by
  have h : (runValidation docs).errors
      = (processDocs (docs.map Doc.name) ⟨[], [], []⟩ docs).errors := rfl
  rw [h, processDocs_errors]
  rfl

theorem runValidation_incoming_lookup (docs : List Doc) (t : String) :
    lookupOpt (runValidation docs).incoming t =
      extendOpt none (docs.flatMap (incomingFor (docs.map Doc.name) t)) := by
  have h : (runValidation docs).incoming
      = (processDocs (docs.map Doc.name) ⟨[], [], []⟩ docs).incoming := rfl
  rw [h, processDocs_incoming]
  rfl

theorem runValidation_allLinks (docs : List Doc) :
    (runValidation docs).allLinks =
      docs.foldl (fun m d => insertReplace m d.name (docLinks d)) [] := by
  have h : (runValidation docs).allLinks
      = (processDocs (docs.map Doc.name) ⟨[], [], []⟩ docs).allLinks := rfl
  rw [h, processDocs_allLinks]

theorem runValidation_warnings (docs : List Doc) :
    (runValidation docs).warnings =
      docs.filterMap (fun d => orphanWarning (runValidation docs).incoming d.name) := rfl

theorem runValidation_success (docs : List Doc) :
    (runValidation docs).success = ((runValidation docs).errors.length == 0) := rfl

/-! ### Orphan warnings -/

theorem orphanWarning_subject (incoming : List (String × List (String × String)))
    (n : String) (w : VWarning) (h : orphanWarning incoming n = some w) :
    warnSubject w = n := by
  unfold orphanWarning at h
  split at h
  · simp at h
  · split at h
    · rw [← Option.some.inj h]
      rfl
    · split at h
      · rw [← Option.some.inj h]
        rfl
      · simp at h

theorem orphanWarning_nav (incoming : List (String × List (String × String))) :
    orphanWarning incoming navIndexName = none := by
  simp [orphanWarning]

theorem warn_filter_length (incoming : List (String × List (String × String)))
    (ds : List Doc) (n : String) :
    ((ds.filterMap (fun d => orphanWarning incoming d.name)).filter
        (fun w => warnSubject w == n)).length =
      if (orphanWarning incoming n).isSome then (ds.map Doc.name).count n else 0 := by
  induction ds with
  | nil => simp
  | cons d ds ih =>
    rw [List.filterMap_cons]
    cases hw : orphanWarning incoming d.name with
    | none =>
      by_cases hn : d.name = n
      · subst hn
        rw [ih, hw]
        simp [List.count_cons]
      · rw [ih]
        have hne2 : ¬ n = d.name := fun h => hn h.symm
        have hcnt : ((d.name :: ds.map Doc.name).count n) = (ds.map Doc.name).count n := by
          simp [List.count_cons, hne2]
        simp only [List.map_cons, hcnt]
    | some w =>
      have hs := orphanWarning_subject incoming d.name w hw
      by_cases hn : d.name = n
      · subst hn
        have hbeq : (warnSubject w == d.name) = true := by simp [hs]
        rw [List.filter_cons, if_pos hbeq]
        rw [List.length_cons, ih, hw]
        simp [List.count_cons]
      · have hbeq : (warnSubject w == n) = false := by simp [hs, hn]
        rw [List.filter_cons, if_neg (by simp [hbeq]), ih]
        have hne2 : ¬ n = d.name := fun h => hn h.symm
        have hcnt : ((d.name :: ds.map Doc.name).count n) = (ds.map Doc.name).count n := by
          simp [List.count_cons, hne2]
        simp only [List.map_cons, hcnt]

/-! ### The `all_links` and `link_matrix` dicts -/

theorem lookupOpt_foldl_insertReplace_not_mem {α : Type} (val : Doc → α) (ds : List Doc)
    (m0 : List (String × α)) (t : String) (h : t ∉ ds.map Doc.name) :
    lookupOpt (ds.foldl (fun m x => insertReplace m x.name (val x)) m0) t
      = lookupOpt m0 t := by
  induction ds generalizing m0 with
  | nil => rfl
  | cons d ds ih =>
    rw [List.map_cons, List.mem_cons] at h
    push_neg at h
    rw [List.foldl_cons, ih _ h.2, lookupOpt_insertReplace]
    rw [if_neg h.1]

theorem lookupOpt_foldl_insertReplace {α : Type} (val : Doc → α) (ds : List Doc)
    (m0 : List (String × α)) (d : Doc) (hnd : (ds.map Doc.name).Nodup) (hd : d ∈ ds) :
    lookupOpt (ds.foldl (fun m x => insertReplace m x.name (val x)) m0) d.name
      = some (val d) := by
  induction ds generalizing m0 with
  | nil => cases hd
  | cons x xs ih =>
    rw [List.map_cons, List.nodup_cons] at hnd
    rw [List.foldl_cons]
    rcases List.mem_cons.mp hd with heq | hmem
    · subst heq
      rw [lookupOpt_foldl_insertReplace_not_mem val xs _ _ hnd.1, lookupOpt_insertReplace]
      rw [if_pos rfl]
    · exact ih _ hnd.2 hmem

theorem keys_insertReplace {α : Type} (m : List (String × α)) (k : String) (v : α)
    (h : k ∉ m.map Prod.fst) :
    (insertReplace m k v).map Prod.fst = m.map Prod.fst ++ [k] := by
  induction m with
  | nil => rfl
  | cons kv rest ih =>
    obtain ⟨k2, v2⟩ := kv
    rw [List.map_cons, List.mem_cons] at h
    push_neg at h
    have hne : ¬ (k2 = k) := fun hc => h.1 hc.symm
    show (insertReplace ((k2, v2) :: rest) k v).map Prod.fst = _
    unfold insertReplace
    rw [if_neg hne]
    simp [ih h.2]

theorem keys_foldl_insertReplace {α : Type} (val : Doc → α) (ds : List Doc)
    (m0 : List (String × α)) (hnd : (ds.map Doc.name).Nodup)
    (hdisj : ∀ d ∈ ds, d.name ∉ m0.map Prod.fst) :
    (ds.foldl (fun m x => insertReplace m x.name (val x)) m0).map Prod.fst
      = m0.map Prod.fst ++ ds.map Doc.name := by
  induction ds generalizing m0 with
  | nil => simp
  | cons x xs ih =>
    rw [List.map_cons, List.nodup_cons] at hnd
    rw [List.foldl_cons]
    have hkeys := keys_insertReplace m0 x.name (val x) (hdisj x (List.mem_cons_self x xs))
    have hdisj2 : ∀ d ∈ xs, d.name ∉ (insertReplace m0 x.name (val x)).map Prod.fst := by
      intro d hdmem
      rw [hkeys]
      intro hc
      rcases List.mem_append.mp hc with hin | hin
      · exact hdisj d (List.mem_cons_of_mem x hdmem) hin
      · rw [List.mem_singleton] at hin
        exact hnd.1 (hin ▸ List.mem_map_of_mem Doc.name hdmem)
    rw [ih _ hnd.2 hdisj2, hkeys]
    simp

/-! ### The claims -/

/-- C1: `validate_all_links` returns true if and only if zero Errors were
recorded during the run; the returned value is computed from the error
list alone, so the number of Warnings never affects it. -/
theorem success_iff_zero_errors (docs : List Doc) :
    (runValidation docs).success = true ↔ (runValidation docs).errors.length = 0 := by
  rw [runValidation_success]
  simp

/-- C2 counterexample: a directory whose only document cannot be read
records no broken-link error at all, yet the process exits with code 1 —
so "exit 0 whenever no broken links were detected" fails. -/
theorem exit_code_read_failure_counterexample :
    mainExitCode [docBad] = 1 ∧
      (runValidation [docBad]).errors = [VError.readError "bad.md" "boom"] := by
  decide

/-- C2 (amended): with no flags the process exits with code 0 exactly
when zero Errors were recorded — broken links or read failures — and
with code 1 otherwise; warnings never change the exit code. -/
theorem exit_code_iff_no_errors (docs : List Doc) :
    mainExitCode docs = if (runValidation docs).errors = [] then 0 else 1 := by
  unfold mainExitCode
  rw [runValidation_success]
  by_cases h : (runValidation docs).errors = []
  · rw [if_pos h, h]
    rfl
  · rw [if_neg h]
    have hlen : (runValidation docs).errors.length ≠ 0 := by
      intro hc
      exact h (List.length_eq_zero.mp hc)
    have hb : ((runValidation docs).errors.length == 0) = false := by
      simp [hlen]
    rw [hb]
    rfl

/-- C3 counterexample: a document whose only incoming link comes from
itself has no incoming links from any *other* document and is not the
navigation index, yet the run emits no orphan warning for it, not exactly
one. -/
theorem orphan_self_link_counterexample :
    (runValidation [docSelf]).warnings = [] ∧
      docLinks docSelf = [("self", "a.md")] ∧
      docSelf.name = "a.md" ∧
      ("a.md" : String) ≠ navIndexName := by
  decide

/-- C3 (amended): for every known document D other than the navigation
index with no incoming links from any document (a document's links to
itself included), exactly one orphan warning is emitted for D. -/
theorem orphan_warning_for_unlinked (docs : List Doc) (n : String)
    (hnd : (docs.map Doc.name).Nodup)
    (hmem : n ∈ docs.map Doc.name)
    (hnav : n ≠ navIndexName)
    (hno : ∀ d ∈ docs, ∀ l ∈ docLinks d, l.2 ≠ n) :
    ((runValidation docs).warnings.filter (fun w => warnSubject w == n)).length = 1 := by
  have hnil : docs.flatMap (incomingFor (docs.map Doc.name) n) = [] := by
    rw [List.flatMap_eq_nil_iff]
    intro d hd
    unfold incomingFor
    have hfil : (docLinks d).filter
        (fun l => (docs.map Doc.name).contains l.2 && l.2 == n) = [] := by
      rw [List.filter_eq_nil_iff]
      intro l hl
      have hne := hno d hd l hl
      simp [hne]
    rw [hfil]
    rfl
  have hlook : lookupOpt (runValidation docs).incoming n = none := by
    rw [runValidation_incoming_lookup, hnil]
    rfl
  have hw : orphanWarning (runValidation docs).incoming n
      = some (VWarning.noIncoming n) := by
    unfold orphanWarning
    rw [if_neg hnav, hlook]
  rw [runValidation_warnings, warn_filter_length, hw]
  simp [List.count_eq_one_of_mem hnd hmem]

/-- Witness for the amended C3 on a one-document directory. -/
theorem orphan_warning_for_unlinked_witness :
    (([docEmpty].map Doc.name).Nodup ∧ "a.md" ∈ [docEmpty].map Doc.name ∧
      ("a.md" : String) ≠ navIndexName ∧
      (∀ d ∈ [docEmpty], ∀ l ∈ docLinks d, l.2 ≠ "a.md")) ∧
    ((runValidation [docEmpty]).warnings.filter
        (fun w => warnSubject w == "a.md")).length = 1 :=
  ⟨by decide, orphan_warning_for_unlinked [docEmpty] "a.md" (by decide) (by decide)
    (by decide) (by decide)⟩

theorem filterMap_brokenOf_map (nm : String) (ls : List (String × String)) :
    (ls.map (fun l => VError.brokenLink nm l.2 l.1)).filterMap brokenOf
      = ls.map (fun l => (nm, l.2, l.1)) := by
  induction ls with
  | nil => rfl
  | cons l ls ih => simp [brokenOf, ih]

theorem filterMap_brokenOf_readErrors (d : Doc) :
    (docReadErrors d).filterMap brokenOf = [] := by
  cases hc : d.content <;> simp [docReadErrors, extractLinksRes, hc, brokenOf]

/-- C4: for every extracted link whose target is not a known document
name, exactly one Error is recorded, and it names the source document,
the target, and the display text: the run's broken-link errors are, in
order, exactly one (source, target, text) triple per such link. -/
theorem one_error_per_broken_link (docs : List Doc) :
    (runValidation docs).errors.filterMap brokenOf =
      docs.flatMap (fun d =>
        ((docLinks d).filter (fun l => !(docs.map Doc.name).contains l.2)).map
          (fun l => (d.name, l.2, l.1))) := by
  rw [runValidation_errors]
  generalize docs.map Doc.name = names
  induction docs with
  | nil => rfl
  | cons d ds ih =>
    rw [List.flatMap_cons, List.flatMap_cons, List.filterMap_append, ih,
      List.filterMap_append, filterMap_brokenOf_readErrors]
    unfold brokenErrorsFor
    rw [filterMap_brokenOf_map]
    simp

/-- C5: after the run, the incoming-link index entry of every target name
equals the sequence of all (source document, display text) pairs of
extracted links whose target equals that name and is a known document,
with every such link appearing exactly once. -/
theorem incoming_entry_eq_spec (docs : List Doc) (t : String) :
    (lookupOpt (runValidation docs).incoming t).getD [] = specIncomingPairs docs t := by
  rw [runValidation_incoming_lookup]
  have hsplit : docs.flatMap (incomingFor (docs.map Doc.name) t)
      = specIncomingPairs docs t := by
    unfold specIncomingPairs
    cases hc : (docs.map Doc.name).contains t with
    | false =>
      rw [if_neg (by simp [hc])]
      rw [List.flatMap_eq_nil_iff]
      intro d hd
      unfold incomingFor
      have hfil : (docLinks d).filter
          (fun l => (docs.map Doc.name).contains l.2 && l.2 == t) = [] := by
        rw [List.filter_eq_nil_iff]
        intro l hl
        by_cases h : l.2 = t
        · rw [h, hc]
          simp
        · simp [h]
      rw [hfil]
      rfl
    | true =>
      rw [if_pos (by simp [hc])]
      have hpred : (fun l : String × String =>
            (docs.map Doc.name).contains l.2 && (l.2 == t))
          = (fun l => l.2 == t) := by
        funext l
        by_cases h : l.2 = t
        · rw [h, hc]
          simp
        · simp [h]
      unfold incomingFor
      rw [hpred]
  rw [hsplit]
  cases hx : specIncomingPairs docs t <;> simp [extendOpt]

/-- C6: each known document yields at most one warning per run — the two
orphan classifications are mutually exclusive — and the navigation-index
document yields no orphan warning at all, whatever its incoming links. -/
theorem at_most_one_warning_and_nav_exempt (docs : List Doc) (n : String)
    (hnd : (docs.map Doc.name).Nodup) :
    ((runValidation docs).warnings.filter (fun w => warnSubject w == n)).length ≤ 1 ∧
    ((runValidation docs).warnings.filter
        (fun w => warnSubject w == navIndexName)).length = 0 := by
  constructor
  · rw [runValidation_warnings, warn_filter_length]
    cases h : (orphanWarning (runValidation docs).incoming n).isSome
    · rw [if_neg (by simp [h])]
      omega
    · rw [if_pos (by simp [h])]
      exact List.nodup_iff_count_le_one.mp hnd n
  · rw [runValidation_warnings, warn_filter_length, orphanWarning_nav]
    simp

/-- Witness for C6 on a one-document directory. -/
theorem at_most_one_warning_and_nav_exempt_witness :
    ([docEmpty].map Doc.name).Nodup ∧
    (((runValidation [docEmpty]).warnings.filter
        (fun w => warnSubject w == "a.md")).length ≤ 1 ∧
      ((runValidation [docEmpty]).warnings.filter
        (fun w => warnSubject w == navIndexName)).length = 0) :=
  ⟨by decide, at_most_one_warning_and_nav_exempt [docEmpty] "a.md" (by decide)⟩

theorem filter_readError_brokenErrorsFor (names : List String) (d : Doc) (n e : String) :
    (brokenErrorsFor names d).filter (fun x => x == VError.readError n e) = [] := by
  rw [List.filter_eq_nil_iff]
  intro x hx
  unfold brokenErrorsFor at hx
  obtain ⟨l, hl, rfl⟩ := List.mem_map.mp hx
  simp

theorem filter_readError_docReadErrors (d : Doc) (n e : String) :
    ((docReadErrors d).filter (fun x => x == VError.readError n e)).length
      = if d.name == n && d.content == ReadResult.fail e then 1 else 0 := by
  cases hc : d.content with
  | ok c =>
    simp [docReadErrors, extractLinksRes, hc]
  | fail msg =>
    simp only [docReadErrors, extractLinksRes, hc]
    by_cases h1 : d.name = n
    · by_cases h2 : msg = e
      · rw [h1, h2]
        simp
      · simp [h1, h2]
    · simp [h1]

theorem count_readError_run (docs : List Doc) (n e : String) :
    ((runValidation docs).errors.filter (fun x => x == VError.readError n e)).length
      = (docs.filter (fun x => x.name == n && x.content == ReadResult.fail e)).length := by
  rw [runValidation_errors]
  generalize docs.map Doc.name = names
  induction docs with
  | nil => rfl
  | cons d ds ih =>
    rw [List.flatMap_cons, List.filter_append, List.filter_append, List.length_append,
      List.length_append, ih, filter_readError_brokenErrorsFor,
      filter_readError_docReadErrors, List.filter_cons]
    by_cases h : (d.name == n && d.content == ReadResult.fail e) = true
    · rw [if_pos h, if_pos h]
      simp only [List.length_cons, List.length_nil]
      omega
    · rw [if_neg h, if_neg h]
      simp

theorem filter_length_eq_one (ds : List Doc) (p : Doc → Bool) (d : Doc)
    (hnd : (ds.map Doc.name).Nodup) (hd : d ∈ ds) (hp : p d = true)
    (hname : ∀ x, p x = true → x.name = d.name) :
    (ds.filter p).length = 1 := by
  induction ds with
  | nil => cases hd
  | cons x xs ih =>
    rw [List.map_cons, List.nodup_cons] at hnd
    rcases List.mem_cons.mp hd with heq | hmem
    · subst heq
      rw [List.filter_cons, if_pos hp]
      have hxs : xs.filter p = [] := by
        rw [List.filter_eq_nil_iff]
        intro y hy hpy
        have hyname : y.name = d.name := hname y hpy
        apply hnd.1
        rw [← hyname]
        exact List.mem_map_of_mem Doc.name hy
      rw [hxs]
      rfl
    · have hpx : p x = false := by
        cases hpc : p x
        · rfl
        · exfalso
          apply hnd.1
          rw [hname x hpc]
          exact List.mem_map_of_mem Doc.name hmem
      rw [List.filter_cons, if_neg (by simp [hpx])]
      exact ih hnd.2 hmem

/-- C7: a document that cannot be read contributes exactly one read
error describing the failure, its stored link list is the empty list,
and every other document is still fully processed: its link list is
stored and its broken links are still reported — no early termination. -/
theorem read_failure_isolated (docs : List Doc) (d d2 : Doc) (e : String)
    (l : String × String)
    (hnd : (docs.map Doc.name).Nodup) (hd : d ∈ docs)
    (he : d.content = ReadResult.fail e)
    (hd2 : d2 ∈ docs) (hl : l ∈ docLinks d2)
    (hu : (docs.map Doc.name).contains l.2 = false) :
    ((runValidation docs).errors.filter
        (fun x => x == VError.readError d.name e)).length = 1 ∧
    lookupOpt (runValidation docs).allLinks d.name = some [] ∧
    lookupOpt (runValidation docs).allLinks d2.name = some (docLinks d2) ∧
    VError.brokenLink d2.name l.2 l.1 ∈ (runValidation docs).errors := by
  refine ⟨?_, ?_, ?_, ?_⟩
  · rw [count_readError_run]
    apply filter_length_eq_one docs _ d hnd hd
    · simp [he]
    · intro x hx
      rw [Bool.and_eq_true] at hx
      exact eq_of_beq hx.1
  · have hlinks : docLinks d = [] := by simp [docLinks, extractLinksRes, he]
    rw [runValidation_allLinks, lookupOpt_foldl_insertReplace docLinks docs [] d hnd hd,
      hlinks]
  · rw [runValidation_allLinks]
    exact lookupOpt_foldl_insertReplace docLinks docs [] d2 hnd hd2
  · rw [runValidation_errors, List.mem_flatMap]
    refine ⟨d2, hd2, ?_⟩
    apply List.mem_append_right
    unfold brokenErrorsFor
    apply List.mem_map_of_mem
    rw [List.mem_filter]
    exact ⟨hl, by rw [hu]; rfl⟩

/-- Witness for C7: one unreadable and one readable document with a
broken link. -/
theorem read_failure_isolated_witness :
    ((docsRF.map Doc.name).Nodup ∧ docBad ∈ docsRF ∧
      docBad.content = ReadResult.fail "boom" ∧ docGood ∈ docsRF ∧
      ("y", "missing.md") ∈ docLinks docGood ∧
      (docsRF.map Doc.name).contains "missing.md" = false) ∧
    (((runValidation docsRF).errors.filter
        (fun x => x == VError.readError docBad.name "boom")).length = 1 ∧
      lookupOpt (runValidation docsRF).allLinks docBad.name = some [] ∧
      lookupOpt (runValidation docsRF).allLinks docGood.name = some (docLinks docGood) ∧
      VError.brokenLink docGood.name "missing.md" "y" ∈ (runValidation docsRF).errors) :=
  ⟨by decide, read_failure_isolated docsRF docBad docGood "boom" ("y", "missing.md")
    (by decide) (by decide) (by decide) (by decide) (by decide) (by decide)⟩

/-- C8: the report has one data row per document, rows ordered by
document name; each row is rendered from that document's outgoing
targets, where the rendered target list contains each distinct target
exactly once, sorted (and `reportRow` emits the placeholder when the
target list is empty). -/
theorem report_rows_spec (docs : List Doc) (d : Doc) (t : String)
    (hnd : (docs.map Doc.name).Nodup) (hd : d ∈ docs) :
    (linkMatrix docs).map Prod.fst = docs.map Doc.name ∧
    lookupOpt (linkMatrix docs) d.name = some ((docLinks d).map Prod.snd) ∧
    reportRows docs = (sortStrings (docs.map Doc.name)).map
      (fun n => reportRow n ((lookupOpt (linkMatrix docs) n).getD [])) ∧
    (sortedDistinct ((docLinks d).map Prod.snd)).count t
      = (if t ∈ (docLinks d).map Prod.snd then 1 else 0) ∧
    List.Sorted (fun a b : String => a ≤ b)
      (sortedDistinct ((docLinks d).map Prod.snd)) := by
  have hkeys : (linkMatrix docs).map Prod.fst = docs.map Doc.name := by
    unfold linkMatrix
    rw [keys_foldl_insertReplace (fun x => (docLinks x).map Prod.snd) docs []
      hnd (by intro x hx; simp)]
    rfl
  refine ⟨hkeys, ?_, ?_, ?_, ?_⟩
  · unfold linkMatrix
    exact lookupOpt_foldl_insertReplace _ docs [] d hnd hd
  · unfold reportRows
    rw [hkeys]
  · unfold sortedDistinct sortStrings
    rw [(List.perm_insertionSort _ _).count_eq, List.count_dedup]
  · unfold sortedDistinct sortStrings
    exact List.sorted_insertionSort _ _

/-- Witness for C8: a document with two links to the same target next to
a document with none. -/
theorem report_rows_spec_witness :
    ((docsDup.map Doc.name).Nodup ∧ docDup ∈ docsDup) ∧
    ((linkMatrix docsDup).map Prod.fst = docsDup.map Doc.name ∧
      lookupOpt (linkMatrix docsDup) docDup.name = some ((docLinks docDup).map Prod.snd) ∧
      reportRows docsDup = (sortStrings (docsDup.map Doc.name)).map
        (fun n => reportRow n ((lookupOpt (linkMatrix docsDup) n).getD [])) ∧
      (sortedDistinct ((docLinks docDup).map Prod.snd)).count "a.md"
        = (if "a.md" ∈ (docLinks docDup).map Prod.snd then 1 else 0) ∧
      List.Sorted (fun a b : String => a ≤ b)
        (sortedDistinct ((docLinks docDup).map Prod.snd))) :=
  ⟨by decide, report_rows_spec docsDup docDup "a.md" (by decide) (by decide)⟩

/-- C10: every key of the incoming-link index is a known document name —
a link whose target is not a known document is never added to the
index. -/
theorem incoming_keys_known (docs : List Doc) (k : String)
    (hk : k ∈ (runValidation docs).incoming.map Prod.fst) :
    (docs.map Doc.name).contains k = true := by
  cases hc : (docs.map Doc.name).contains k with
  | true => rfl
  | false =>
    exfalso
    have hnil : docs.flatMap (incomingFor (docs.map Doc.name) k) = [] := by
      rw [List.flatMap_eq_nil_iff]
      intro d hd
      unfold incomingFor
      have hfil : (docLinks d).filter
          (fun l => (docs.map Doc.name).contains l.2 && l.2 == k) = [] := by
        rw [List.filter_eq_nil_iff]
        intro l hl
        by_cases h : l.2 = k
        · rw [h, hc]
          simp
        · simp [h]
      rw [hfil]
      rfl
    have hlook : lookupOpt (runValidation docs).incoming k = none := by
      rw [runValidation_incoming_lookup, hnil]
      rfl
    exact (lookupOpt_eq_none_iff _ _).mp hlook hk

/-- Witness for C10 on a directory with one valid link. -/
theorem incoming_keys_known_witness :
    "b.md" ∈ (runValidation docsLink).incoming.map Prod.fst ∧
      (docsLink.map Doc.name).contains "b.md" = true :=
  ⟨by decide, incoming_keys_known docsLink "b.md" (by decide)⟩

end ValidateLinks
